import Mathlib

/-!
Verification of the battery-backtest simulation core.

The development embeds, over exact rational arithmetic, the battery interval
model (`internal/model/battery.go`), the backtest engine
(`internal/backtest/engine.go`), the schedule strategy
(`internal/strategy/schedule.go`), the oracle dynamic-programming planner
(`internal/strategy` part of `locations.go`), and the node-ranking analysis
(`internal/analysis/rank.go`).

Go `float64` arithmetic is modelled by `ℚ`; the non-finite values that a
strategy may return are modelled by the type `FPow` below, with the IEEE
comparison semantics that the Go code relies on (every ordered comparison
against NaN is false).  Timestamps (`time.Time`) are opaque to the core: the
code only uses the derived interval duration in hours, the local minute of
day, and the identity of the local calendar day, so intervals carry those
three derived quantities directly.
-/

namespace BatteryBacktest

/-- Physical and economic battery parameters, `model.BatteryParams`. -/
structure BatteryParams where
  energyCapacityMWh : ℚ
  powerCapacityMW : ℚ
  chargeEfficiency : ℚ
  dischargeEfficiency : ℚ
  minSOC : ℚ
  maxSOC : ℚ
  degradationCostPerMWh : ℚ
deriving DecidableEq

/-- Parameter side of `Battery.Validate`: capacity and power positive,
efficiencies in (0, 1], `0 ≤ MinSOC ≤ MaxSOC ≤ 1`, degradation cost
nonnegative.  The initial-SOC check of `Validate` is stated separately as a
hypothesis on the SOC where needed. -/
def ValidParams (p : BatteryParams) : Prop :=
  0 < p.energyCapacityMWh ∧ 0 < p.powerCapacityMW ∧
    (0 < p.chargeEfficiency ∧ p.chargeEfficiency ≤ 1) ∧
    (0 < p.dischargeEfficiency ∧ p.dischargeEfficiency ≤ 1) ∧
    (0 ≤ p.minSOC ∧ p.minSOC ≤ p.maxSOC ∧ p.maxSOC ≤ 1) ∧
    0 ≤ p.degradationCostPerMWh

instance (p : BatteryParams) : Decidable (ValidParams p) := by
  unfold ValidParams; infer_instance

/-- The `clamp01` helper of `battery.go`: snap into [0, 1]. -/
def clamp01 (x : ℚ) : ℚ :=
  if x < 0 then 0 else if x > 1 then 1 else x

/-- `Battery.ClipDispatch`: enforce the power limit with two sequential
comparisons, exactly as in the source. -/
def clipDispatch (p : BatteryParams) (powerMW : ℚ) : ℚ :=
  let p1 := if powerMW > p.powerCapacityMW then p.powerCapacityMW else powerMW
  if p1 < -p.powerCapacityMW then -p.powerCapacityMW else p1

/-- `Battery.maxChargeEnergyFromGridMWh`: grid-side MWh that can still be
charged this interval, limited by SOC headroom and the power capacity. -/
def maxChargeEnergyFromGridMWh (p : BatteryParams) (soc durationHours : ℚ) : ℚ :=
  let storableMWh := (p.maxSOC - soc) * p.energyCapacityMWh
  if storableMWh ≤ 0 then 0
  else
    let limitBySOC := storableMWh / p.chargeEfficiency
    let limitByPower := p.powerCapacityMW * durationHours
    max 0 (min limitBySOC limitByPower)

/-- `Battery.maxDischargeEnergyToGridMWh`: grid-side MWh that can still be
discharged this interval, limited by stored energy and the power capacity. -/
def maxDischargeEnergyToGridMWh (p : BatteryParams) (soc durationHours : ℚ) : ℚ :=
  let withdrawableMWh := (soc - p.minSOC) * p.energyCapacityMWh
  if withdrawableMWh ≤ 0 then 0
  else
    let limitBySOC := withdrawableMWh * p.dischargeEfficiency
    let limitByPower := p.powerCapacityMW * durationHours
    max 0 (min limitBySOC limitByPower)

/-- `model.IntervalResult`: the outcome of one applied dispatch. -/
structure IntervalResult where
  powerMW : ℚ
  energyToGridMWh : ℚ
  energyFromGridMWh : ℚ
  throughputMWh : ℚ
  socStart : ℚ
  socEnd : ℚ
  pnl : ℚ
deriving DecidableEq

/-- `Battery.CalculateIntervalPnL`: revenue minus cost minus degradation. -/
def calculateIntervalPnL (p : BatteryParams) (lmp energyFromGridMWh energyToGridMWh : ℚ) : ℚ :=
  lmp * energyToGridMWh - lmp * energyFromGridMWh -
    p.degradationCostPerMWh * (energyFromGridMWh + energyToGridMWh)

/-- Body of `Battery.ApplyDispatch` after the duration check and the power
clip: branch on the sign of the clipped power, clip further by the SOC
limits, update SOC through `clamp01`, and compute PnL. -/
def applyDispatchClipped (p : BatteryParams) (soc lmp pw durationHours : ℚ) : IntervalResult :=
  if pw < 0 then
    let reqFromGridMWh0 := -pw * durationHours
    let maxChargeMWhGrid := maxChargeEnergyFromGridMWh p soc durationHours
    let reqFromGridMWh := if reqFromGridMWh0 > maxChargeMWhGrid then maxChargeMWhGrid
      else reqFromGridMWh0
    let pw2 := if reqFromGridMWh0 > maxChargeMWhGrid then -reqFromGridMWh / durationHours else pw
    let storedMWh := reqFromGridMWh * p.chargeEfficiency
    let socEnd := clamp01 ((soc * p.energyCapacityMWh + storedMWh) / p.energyCapacityMWh)
    ⟨pw2, 0, reqFromGridMWh, reqFromGridMWh, soc, socEnd,
      calculateIntervalPnL p lmp reqFromGridMWh 0⟩
  else if pw > 0 then
    let reqToGridMWh0 := pw * durationHours
    let maxDischargeMWhGrid := maxDischargeEnergyToGridMWh p soc durationHours
    let reqToGridMWh := if reqToGridMWh0 > maxDischargeMWhGrid then maxDischargeMWhGrid
      else reqToGridMWh0
    let pw2 := if reqToGridMWh0 > maxDischargeMWhGrid then reqToGridMWh / durationHours else pw
    let withdrawnMWh := reqToGridMWh / p.dischargeEfficiency
    let socEnd := clamp01 ((soc * p.energyCapacityMWh - withdrawnMWh) / p.energyCapacityMWh)
    ⟨pw2, reqToGridMWh, 0, reqToGridMWh, soc, socEnd,
      calculateIntervalPnL p lmp 0 reqToGridMWh⟩
  else
    ⟨0, 0, 0, 0, soc, soc, calculateIntervalPnL p lmp 0 0⟩

/-- `Battery.ApplyDispatch`: fail on non-positive duration, otherwise clip the
requested power and apply the clipped body.  `none` models the Go error. -/
def applyDispatch (p : BatteryParams) (soc lmp powerMW durationHours : ℚ) :
    Option IntervalResult :=
  if durationHours ≤ 0 then none
  else some (applyDispatchClipped p soc lmp (clipDispatch p powerMW) durationHours)

/-- `Battery.ApplyDispatch` together with the state of the receiver after the
call: on error the battery SOC is untouched, on success it becomes the
result's `SOCEnd`. -/
def applyDispatchState (p : BatteryParams) (soc lmp powerMW durationHours : ℚ) :
    Option IntervalResult × ℚ :=
  match applyDispatch p soc lmp powerMW durationHours with
  | none => (none, soc)
  | some r => (some r, r.socEnd)

/-- The SOC after a list of dispatch steps `(powerMW, lmp, durationHours)`,
each applied with `ApplyDispatch` against the running battery state. -/
def socAfterSteps (p : BatteryParams) (soc0 : ℚ) (steps : List (ℚ × ℚ × ℚ)) : ℚ :=
  steps.foldl (fun soc st => (applyDispatchState p soc st.2.1 st.1 st.2.2).2) soc0

/-- `simulateInterval` of `locations.go`: the pure mirror of the battery
physics used by the oracle DP.  Returns (next SOC, realized power, pnl). -/
def simulateInterval (soc desiredPower lmp dtH : ℚ) (p : BatteryParams) : ℚ × ℚ × ℚ :=
  let power0 := if desiredPower > p.powerCapacityMW then p.powerCapacityMW else desiredPower
  let power1 := if power0 < -p.powerCapacityMW then -p.powerCapacityMW else power0
  let branch : ℚ × ℚ × ℚ × ℚ :=
    if power1 < 0 then
      let reqFromGrid0 := -power1 * dtH
      let storableMWh0 := (p.maxSOC - soc) * p.energyCapacityMWh
      let storableMWh := if storableMWh0 < 0 then 0 else storableMWh0
      let limitBySOC := storableMWh / p.chargeEfficiency
      let limitByPower := p.powerCapacityMW * dtH
      let maxFromGrid := min limitBySOC limitByPower
      let reqFromGrid := if reqFromGrid0 > maxFromGrid ∧ dtH > 0 then maxFromGrid else reqFromGrid0
      let power2 := if reqFromGrid0 > maxFromGrid ∧ dtH > 0 then -reqFromGrid / dtH else power1
      let storedMWh := reqFromGrid * p.chargeEfficiency
      (soc + storedMWh / p.energyCapacityMWh, power2, reqFromGrid, 0)
    else if power1 > 0 then
      let reqToGrid0 := power1 * dtH
      let withdrawableMWh0 := (soc - p.minSOC) * p.energyCapacityMWh
      let withdrawableMWh := if withdrawableMWh0 < 0 then 0 else withdrawableMWh0
      let limitBySOC := withdrawableMWh * p.dischargeEfficiency
      let limitByPower := p.powerCapacityMW * dtH
      let maxToGrid := min limitBySOC limitByPower
      let reqToGrid := if reqToGrid0 > maxToGrid ∧ dtH > 0 then maxToGrid else reqToGrid0
      let power2 := if reqToGrid0 > maxToGrid ∧ dtH > 0 then reqToGrid / dtH else power1
      let withdrawnMWh := reqToGrid / p.dischargeEfficiency
      (soc - withdrawnMWh / p.energyCapacityMWh, power2, 0, reqToGrid)
    else
      (soc, power1, 0, 0)
  let nextSOC0 := branch.1
  let energyFromGrid := branch.2.2.1
  let energyToGrid := branch.2.2.2
  let nextSOC1 := if nextSOC0 < p.minSOC then p.minSOC else nextSOC0
  let nextSOC := if nextSOC1 > p.maxSOC then p.maxSOC else nextSOC1
  let pnl := lmp * energyToGrid - lmp * energyFromGrid -
    p.degradationCostPerMWh * (energyFromGrid + energyToGrid)
  (nextSOC, branch.2.1, pnl)

/-- A Go `float64` power setpoint as a strategy may produce it: a finite
value, NaN, or an infinity. -/
inductive FPow where
  | fin : ℚ → FPow
  | nan : FPow
  | posInf : FPow
  | negInf : FPow
deriving DecidableEq

/-- IEEE `>` against a finite bound: false whenever the left side is NaN. -/
def fpGt (x : FPow) (c : ℚ) : Bool :=
  match x with
  | .fin q => decide (q > c)
  | .nan => false
  | .posInf => true
  | .negInf => false

/-- IEEE `<` against a finite bound: false whenever the left side is NaN. -/
def fpLt (x : FPow) (c : ℚ) : Bool :=
  match x with
  | .fin q => decide (q < c)
  | .nan => false
  | .posInf => false
  | .negInf => true

/-- `Battery.ClipDispatch` on a possibly non-finite request, with the Go
comparison semantics: `+Inf` is caught by the first comparison and `-Inf` by
the second, while NaN passes through both untouched. -/
def clipDispatchFP (p : BatteryParams) (x : FPow) : FPow :=
  let x1 := if fpGt x p.powerCapacityMW then FPow.fin p.powerCapacityMW else x
  if fpLt x1 (-p.powerCapacityMW) then FPow.fin (-p.powerCapacityMW) else x1

/-- `Battery.ApplyDispatch` on a possibly non-finite request.  After the clip
the value is finite or NaN; for NaN both sign tests of the branch are false,
so the body runs its idle branch, which is `applyDispatchClipped` at power 0
(the infinite cases after the clip are impossible and mapped to the same
idle branch). -/
def applyDispatchFP (p : BatteryParams) (soc lmp : ℚ) (x : FPow) (durationHours : ℚ) :
    Option IntervalResult :=
  if durationHours ≤ 0 then none
  else some (match clipDispatchFP p x with
    | .fin q => applyDispatchClipped p soc lmp q durationHours
    | _ => applyDispatchClipped p soc lmp 0 durationHours)

/-- `model.Action`: the human-readable operating tag of a ledger row. -/
inductive Action where
  | charging : Action
  | idle : Action
  | discharging : Action
deriving DecidableEq

/-- `model.ActionFromPowerMW`. -/
def actionFromPowerMW (powerMW : ℚ) : Action :=
  if powerMW < 0 then .charging else if powerMW > 0 then .discharging else .idle

/-- One priced interval, `model.LMPInterval`, reduced to the derived
quantities the core actually reads. `durationHours` stands for
`DurationHours()` (from the UTC or local timestamp pair), `startLocalMinutes`
for `IntervalStartLocal.Hour()*60 + IntervalStartLocal.Minute()`, and
`dayKey` for the identity of the local calendar day
`(Year, Month, Day, Location)` used by the per-day grouping. -/
structure LMPInterval where
  lmp : ℚ
  durationHours : ℚ
  startLocalMinutes : ℕ
  dayKey : ℤ
deriving DecidableEq

/-- `backtest.LedgerRow`, without the opaque timestamp and tag columns. -/
structure LedgerRow where
  index : ℕ
  lmp : ℚ
  action : Action
  requestedPower : FPow
  powerMW : ℚ
  energyFromGridMWh : ℚ
  energyToGridMWh : ℚ
  throughputMWh : ℚ
  socStart : ℚ
  socEnd : ℚ
  pnl : ℚ
  cumPNL : ℚ
deriving DecidableEq

/-- Loop body of `Engine.Run`: walk the intervals in order, ask the strategy
for a dispatch, apply it, and accumulate ledger rows and cumulative PnL.
Returns `none` when some `ApplyDispatch` fails. -/
def runAux (p : BatteryParams) (strat : ℕ → LMPInterval → FPow) :
    List LMPInterval → ℕ → ℚ → ℚ → Option (List LedgerRow × ℚ × ℚ)
  | [], _, soc, cum => some ([], cum, soc)
  | it :: rest, idx, soc, cum =>
    let req := strat idx it
    match applyDispatchFP p soc it.lmp req it.durationHours with
    | none => none
    | some res =>
      let cum2 := cum + res.pnl
      let row : LedgerRow :=
        ⟨idx, it.lmp, actionFromPowerMW res.powerMW, req, res.powerMW,
          res.energyFromGridMWh, res.energyToGridMWh, res.throughputMWh,
          res.socStart, res.socEnd, res.pnl, cum2⟩
      match runAux p strat rest (idx + 1) res.socEnd cum2 with
      | none => none
      | some (rows, total, finalSOC) => some (row :: rows, total, finalSOC)

/-- `Engine.Run`: fail on an empty interval list, otherwise run the loop from
index 0, the initial SOC, and zero cumulative PnL.  The result is
`(ledger, total PnL, final SOC)`. -/
def run (intervals : List LMPInterval) (p : BatteryParams) (initialSOC : ℚ)
    (strat : ℕ → LMPInterval → FPow) : Option (List LedgerRow × ℚ × ℚ) :=
  if intervals = [] then none
  else runAux p strat intervals 0 initialSOC 0

/-- The parsed schedule parameters: the four window endpoints of
`ScheduleStrategy` in minutes of day (after `parseHHMM` and the defaulting of
missing ends), and the two power magnitudes. -/
structure ScheduleTimes where
  csMins : ℕ
  ceMins : ℕ
  dsMins : ℕ
  deMins : ℕ
  chargePowerMW : ℚ
  dischargePowerMW : ℚ
deriving DecidableEq

/-- `inWindow` of `schedule.go`: membership of a minute of day in a half-open
window on a 24-hour clock, wrapping across midnight when `start > end`. -/
def inWindow (tMins start0 end0 : ℕ) : Bool :=
  if start0 = end0 then false
  else if start0 < end0 then decide (start0 ≤ tMins) && decide (tMins < end0)
  else decide (start0 ≤ tMins) || decide (tMins < end0)

/-- `ScheduleStrategy.Decide` after initialization: charge window first, then
discharge window, else idle. -/
def scheduleDecide (s : ScheduleTimes) (tMins : ℕ) : ℚ :=
  if inWindow tMins s.csMins s.ceMins then -|s.chargePowerMW|
  else if inWindow tMins s.dsMins s.deMins then |s.dischargePowerMW|
  else 0

/-- The schedule strategy as the engine sees it: decide from the local minute
of day of the interval start. -/
def scheduleStrategy (s : ScheduleTimes) : ℕ → LMPInterval → FPow :=
  fun _ it => FPow.fin (scheduleDecide s it.startLocalMinutes)

/-- `math.Round` of Go for a nonnegative argument: round half away from
zero, as a natural number. -/
def natRound (q : ℚ) : ℕ :=
  (⌊q + 1 / 2⌋).toNat

/-- The `socToIdx` closure of `optimizeDP`: clamp at the endpoints, else
round the normalized position onto the grid of `socSteps + 1` states. -/
def socToIdx (p : BatteryParams) (socSteps : ℕ) (soc : ℚ) : ℕ :=
  if soc ≤ p.minSOC then 0
  else if soc ≥ p.maxSOC then socSteps
  else natRound ((soc - p.minSOC) / (p.maxSOC - p.minSOC) * socSteps)

/-- The `idxToSoc` closure of `optimizeDP`. -/
def idxToSoc (p : BatteryParams) (socSteps : ℕ) (idx : ℕ) : ℚ :=
  if idx = 0 then p.minSOC
  else if socSteps ≤ idx then p.maxSOC
  else p.minSOC + (idx : ℚ) / (socSteps : ℚ) * (p.maxSOC - p.minSOC)

/-- The `negInf` sentinel of the DP tables (`-1e100`). -/
def negInfValue : ℚ :=
  -(10 ^ 100)

/-- The action grid of `optimizeDP`: `2*powerSteps + 1` evenly spaced signed
powers from `-Pmax` to `+Pmax`. -/
def dpActions (p : BatteryParams) (powerSteps : ℕ) : List ℚ :=
  (List.range (2 * powerSteps + 1)).map
    (fun k => (((k : ℤ) - (powerSteps : ℤ) : ℤ) : ℚ) * (p.powerCapacityMW / (powerSteps : ℚ)))

/-- Inner loop of the DP over one reachable state: try every action, update
the `next` table when the value improves, and track the action whose value
beats the idle baseline `dp[sIdx]` by the largest margin (the recorded
choice defaults to staying idle in the same state).  Unreachable states keep
the `-1` sentinel of the backpointer arrays. -/
def dpProcessState (p : BatteryParams) (socSteps : ℕ) (actions : List ℚ) (lmp dtH : ℚ)
    (dp : List ℚ) (sIdx : ℕ) (next : List ℚ) : List ℚ × ℤ × ℚ :=
  let dpS := dp.getD sIdx negInfValue
  if dpS ≤ negInfValue / 2 then (next, -1, 0)
  else
    let soc := idxToSoc p socSteps sIdx
    let final := actions.foldl
      (fun (acc : List ℚ × ℚ × ℤ × ℚ) a =>
        let (nx, bestValue, bestNextState, bestPower) := acc
        let step := simulateInterval soc a lmp dtH p
        let ns := socToIdx p socSteps step.1
        let v := dpS + step.2.2
        let nx2 := if v > nx.getD ns negInfValue then nx.set ns v else nx
        if v > bestValue then (nx2, v, (ns : ℤ), step.2.1)
        else (nx2, bestValue, bestNextState, bestPower))
      (next, dpS, (sIdx : ℤ), 0)
    (final.1, final.2.2.1, final.2.2.2)

/-- One interval of the DP forward pass: sweep all states against a fresh
`next` table initialized to `-1e100`, collecting the backpointer row. -/
def dpStep (p : BatteryParams) (socSteps : ℕ) (actions : List ℚ) (lmp dtH : ℚ)
    (dp : List ℚ) : List ℚ × List (ℤ × ℚ) :=
  (List.range (socSteps + 1)).foldl
    (fun (acc : List ℚ × List (ℤ × ℚ)) sIdx =>
      let out := dpProcessState p socSteps actions lmp dtH dp sIdx acc.1
      (out.1, acc.2 ++ [(out.2.1, out.2.2)]))
    (List.replicate (socSteps + 1) negInfValue, [])

/-- The forward pass of `optimizeDP` over the day's intervals: fail on a
non-positive duration, otherwise fold `dpStep` and collect the backpointer
rows in interval order.  Returns the final DP table and the rows. -/
def dpForward (p : BatteryParams) (socSteps : ℕ) (actions : List ℚ) :
    List LMPInterval → List ℚ → Option (List ℚ × List (List (ℤ × ℚ)))
  | [], dp => some (dp, [])
  | it :: rest, dp =>
    if it.durationHours ≤ 0 then none
    else
      let out := dpStep p socSteps actions it.lmp it.durationHours dp
      match dpForward p socSteps actions rest out.1 with
      | none => none
      | some (dpF, rows) => some (dpF, out.2 :: rows)

/-- Forward reconstruction of `optimizeDP`: follow the recorded choices from
the initial state, emitting the recorded power, or idle (holding the state)
when the `-1` sentinel is met. -/
def reconstructPlan (choices : List (List (ℤ × ℚ))) (initIdx : ℕ) : List ℚ :=
  (choices.foldl
    (fun (acc : List ℚ × ℕ) row =>
      let c := row.getD acc.2 (-1, 0)
      if c.1 < 0 then (acc.1 ++ [0], acc.2)
      else (acc.1 ++ [c.2], c.1.toNat))
    ([], initIdx)).1

/-- The best value of the final DP table (`bestVal` in `optimizeDP`); the
source computes it but the returned plan does not depend on it. -/
def dpBestFinalValue (dp : List ℚ) : ℚ :=
  dp.foldl (fun b v => if v > b then v else b) negInfValue

/-- `optimizeDP`: enforce the minimum of 2 SOC steps, build the grids, run
the forward pass from the quantized initial SOC, and reconstruct the plan
forward from the initial state. -/
def optimizeDP (intervals : List LMPInterval) (p : BatteryParams) (initialSOC : ℚ)
    (socSteps0 powerSteps : ℕ) : Option (List ℚ) :=
  let socSteps := if socSteps0 < 2 then 2 else socSteps0
  let actions := dpActions p powerSteps
  let initIdx := socToIdx p socSteps initialSOC
  let dp0 := (List.replicate (socSteps + 1) negInfValue).set initIdx 0
  match dpForward p socSteps actions intervals dp0 with
  | none => none
  | some out => some (reconstructPlan out.2 initIdx)

/-- The consecutive-day grouping of `optimizeDPByDay`: the Go loop flushes
the running group whenever the interval's local calendar day differs from
the day of the group's first interval, so the groups are the maximal runs of
equal `dayKey`. -/
def chunkByDay : List LMPInterval → List (List LMPInterval)
  | [] => []
  | x :: xs =>
    match chunkByDay xs with
    | [] => [[x]]
    | [] :: gs => [[x]] ++ [] :: gs
    | (y :: ys) :: gs =>
      if x.dayKey = y.dayKey then (x :: y :: ys) :: gs else [x] :: (y :: ys) :: gs

/-- Optimize each day group independently with `optimizeDP`, all from the
same initial SOC, and concatenate the plans in order. -/
def planDays (p : BatteryParams) (initialSOC : ℚ) (socSteps powerSteps : ℕ) :
    List (List LMPInterval) → Option (List ℚ)
  | [] => some []
  | g :: gs =>
    match optimizeDP g p initialSOC socSteps powerSteps with
    | none => none
    | some d =>
      match planDays p initialSOC socSteps powerSteps gs with
      | none => none
      | some rest => some (d ++ rest)

/-- `optimizeDPByDay`: fail on no intervals, group by local calendar day,
optimize each day, concatenate, and validate the total plan length against
the interval count. -/
def optimizeDPByDay (intervals : List LMPInterval) (p : BatteryParams) (initialSOC : ℚ)
    (socSteps powerSteps : ℕ) : Option (List ℚ) :=
  if intervals = [] then none
  else
    match planDays p initialSOC socSteps powerSteps (chunkByDay intervals) with
    | none => none
    | some plan => if plan.length ≠ intervals.length then none else some plan

/-- `NewOracleStrategy`: fail on no intervals, default non-positive grid
parameters to 200 SOC steps and 10 power steps, and build the plan with the
per-day DP. -/
def newOracleStrategy (intervals : List LMPInterval) (p : BatteryParams) (initialSOC : ℚ)
    (cfgSocSteps cfgPowerSteps : ℤ) : Option (List ℚ) :=
  if intervals = [] then none
  else
    let socSteps : ℕ := (if cfgSocSteps ≤ 0 then 200 else cfgSocSteps).toNat
    let powerSteps : ℕ := (if cfgPowerSteps ≤ 0 then 10 else cfgPowerSteps).toNat
    optimizeDPByDay intervals p initialSOC socSteps powerSteps

/-- `OracleStrategy.Decide`: replay the plan by interval index, idle when the
index is out of range. -/
def oracleStrategy (plan : List ℚ) : ℕ → LMPInterval → FPow :=
  fun idx _ => FPow.fin (plan.getD idx 0)

/-- The ascending sort used by `ComputePotential` (`sort.Float64s`). -/
def sortQ (xs : List ℚ) : List ℚ :=
  xs.mergeSort (fun a b => a ≤ b)

/-- `percentileSorted` of `rank.go`: linear interpolation between order
statistics of an ascending array at position `q * (n - 1)`. -/
def percentileSorted (sorted : List ℚ) (q : ℚ) : ℚ :=
  if sorted.length = 0 then 0
  else if q ≤ 0 then sorted.getD 0 0
  else if q ≥ 1 then sorted.getD (sorted.length - 1) 0
  else
    let pos := q * ((sorted.length : ℚ) - 1)
    let lo := ⌊pos⌋
    let hi := ⌈pos⌉
    if lo = hi then sorted.getD lo.toNat 0
    else
      let frac := pos - (lo : ℚ)
      sorted.getD lo.toNat 0 * (1 - frac) + sorted.getD hi.toNat 0 * frac

/-- The `SpreadP95P05` field of `ComputePotential`: p95 minus p05 of the
sorted LMP values. -/
def spreadP95P05 (lmps : List ℚ) : ℚ :=
  let vals := sortQ lmps
  percentileSorted vals (95 / 100) - percentileSorted vals (5 / 100)

/-- `oracleProfitCanonical` of `rank.go`: full-series DP for the canonical
1 MW / 1 MWh, loss-free battery starting half-full, with the SOC step fixed
to the duration of the first interval. -/
def oracleProfitCanonical (intervals : List LMPInterval) : ℚ :=
  match intervals with
  | [] => 0
  | it0 :: _ =>
    let dt := it0.durationHours
    if dt ≤ 0 then 0
    else
      let steps0 := natRound (1 / dt)
      let steps := if steps0 < 1 then 1 else steps0
      let nStates := steps + 1
      let init0 := natRound (1 / 2 * (steps : ℚ))
      let initIdx := if steps < init0 then steps else init0
      let dp0 := (List.replicate nStates negInfValue).set initIdx 0
      let dpF := intervals.foldl
        (fun dp it =>
          let price := it.lmp
          (List.range nStates).foldl
            (fun next socIdx =>
              let dpS := dp.getD socIdx negInfValue
              if dpS ≤ negInfValue / 2 then next
              else
                let next1 := if dpS > next.getD socIdx negInfValue then next.set socIdx dpS
                  else next
                let next2 :=
                  if socIdx < steps then
                    let gain := -(price * dt)
                    if dpS + gain > next1.getD (socIdx + 1) negInfValue then
                      next1.set (socIdx + 1) (dpS + gain)
                    else next1
                  else next1
                if 0 < socIdx then
                  let gain := price * dt
                  if dpS + gain > next2.getD (socIdx - 1) negInfValue then
                    next2.set (socIdx - 1) (dpS + gain)
                  else next2
                else next2)
            (List.replicate nStates negInfValue))
        dp0
      let best := dpBestFinalValue dpF
      if best ≤ negInfValue / 2 then 0 else best

/-! ### Basic facts about the battery physics -/

theorem clamp01_eq_self {p : BatteryParams} (V : ValidParams p) {x : ℚ}
    (hl : p.minSOC ≤ x) (hr : x ≤ p.maxSOC) : clamp01 x = x := by
  obtain ⟨-, -, -, -, ⟨hm0, hmm, hM1⟩, -⟩ := V
  unfold clamp01
  rw [if_neg (by linarith), if_neg (by linarith)]

theorem ite_lt_zero_eq_max (x : ℚ) : (if x < 0 then (0 : ℚ) else x) = max 0 x := by
  rcases lt_or_le x 0 with h | h
  · simp [h, max_eq_left h.le]
  · simp [not_lt.mpr h, max_eq_right h]

theorem maxCharge_eq {p : BatteryParams} (V : ValidParams p) {soc dt : ℚ}
    (h2 : soc ≤ p.maxSOC) (hdt : 0 < dt) :
    maxChargeEnergyFromGridMWh p soc dt =
      min ((p.maxSOC - soc) * p.energyCapacityMWh / p.chargeEfficiency)
        (p.powerCapacityMW * dt) := by
  obtain ⟨hcap, hPmax, ⟨heffC, -⟩, -, ⟨hm0, hmm, hM1⟩, -⟩ := V
  have hstorable : 0 ≤ (p.maxSOC - soc) * p.energyCapacityMWh :=
    mul_nonneg (by linarith) hcap.le
  have hpow : 0 < p.powerCapacityMW * dt := mul_pos hPmax hdt
  unfold maxChargeEnergyFromGridMWh
  rcases le_or_lt ((p.maxSOC - soc) * p.energyCapacityMWh) 0 with hle | hpos
  · have hz : (p.maxSOC - soc) * p.energyCapacityMWh = 0 := le_antisymm hle hstorable
    simp only [hz, if_pos le_rfl, zero_div]
    rw [min_eq_left hpow.le]
  · rw [if_neg (not_le.mpr hpos)]
    have hdivpos : 0 < (p.maxSOC - soc) * p.energyCapacityMWh / p.chargeEfficiency :=
      div_pos hpos heffC
    exact max_eq_right (le_min hdivpos.le hpow.le)

theorem maxDischarge_eq {p : BatteryParams} (V : ValidParams p) {soc dt : ℚ}
    (h1 : p.minSOC ≤ soc) (hdt : 0 < dt) :
    maxDischargeEnergyToGridMWh p soc dt =
      min ((soc - p.minSOC) * p.energyCapacityMWh * p.dischargeEfficiency)
        (p.powerCapacityMW * dt) := by
  obtain ⟨hcap, hPmax, -, ⟨heffD, -⟩, ⟨hm0, hmm, hM1⟩, -⟩ := V
  have hwith : 0 ≤ (soc - p.minSOC) * p.energyCapacityMWh :=
    mul_nonneg (by linarith) hcap.le
  have hpow : 0 < p.powerCapacityMW * dt := mul_pos hPmax hdt
  unfold maxDischargeEnergyToGridMWh
  rcases le_or_lt ((soc - p.minSOC) * p.energyCapacityMWh) 0 with hle | hpos
  · have hz : (soc - p.minSOC) * p.energyCapacityMWh = 0 := le_antisymm hle hwith
    simp only [hz, if_pos le_rfl, zero_mul]
    rw [min_eq_left hpow.le]
  · rw [if_neg (not_le.mpr hpos)]
    have hmulpos : 0 < (soc - p.minSOC) * p.energyCapacityMWh * p.dischargeEfficiency :=
      mul_pos hpos heffD
    exact max_eq_right (le_min hmulpos.le hpow.le)

theorem maxCharge_nonneg (p : BatteryParams) (soc dt : ℚ) :
    0 ≤ maxChargeEnergyFromGridMWh p soc dt := by
  unfold maxChargeEnergyFromGridMWh
  rcases le_or_lt ((p.maxSOC - soc) * p.energyCapacityMWh) 0 with hle | hpos
  · rw [if_pos hle]
  · rw [if_neg (not_le.mpr hpos)]
    exact le_max_left 0 _

theorem maxDischarge_nonneg (p : BatteryParams) (soc dt : ℚ) :
    0 ≤ maxDischargeEnergyToGridMWh p soc dt := by
  unfold maxDischargeEnergyToGridMWh
  rcases le_or_lt ((soc - p.minSOC) * p.energyCapacityMWh) 0 with hle | hpos
  · rw [if_pos hle]
  · rw [if_neg (not_le.mpr hpos)]
    exact le_max_left 0 _

theorem charge_soc_bounds {p : BatteryParams} (V : ValidParams p) {soc dt req : ℚ}
    (h1 : p.minSOC ≤ soc) (h2 : soc ≤ p.maxSOC) (hdt : 0 < dt)
    (hreq0 : 0 ≤ req) (hreqle : req ≤ maxChargeEnergyFromGridMWh p soc dt) :
    p.minSOC ≤ soc + req * p.chargeEfficiency / p.energyCapacityMWh ∧
      soc + req * p.chargeEfficiency / p.energyCapacityMWh ≤ p.maxSOC := by
  have hV := V
  obtain ⟨hcap, hPmax, ⟨heffC, -⟩, -, ⟨hm0, hmm, hM1⟩, -⟩ := hV
  constructor
  · have : 0 ≤ req * p.chargeEfficiency / p.energyCapacityMWh :=
      div_nonneg (mul_nonneg hreq0 heffC.le) hcap.le
    linarith
  · have hle : req ≤ (p.maxSOC - soc) * p.energyCapacityMWh / p.chargeEfficiency := by
      have := hreqle.trans_eq (maxCharge_eq V h2 hdt)
      exact this.trans (min_le_left _ _)
    have hmul : req * p.chargeEfficiency ≤ (p.maxSOC - soc) * p.energyCapacityMWh := by
      rw [div_eq_mul_inv] at hle
      have := mul_le_mul_of_nonneg_right hle heffC.le
      rwa [mul_assoc, inv_mul_cancel₀ (ne_of_gt heffC), mul_one] at this
    have hdivle : req * p.chargeEfficiency / p.energyCapacityMWh ≤ p.maxSOC - soc := by
      rw [div_le_iff₀ hcap]
      linarith
    linarith

theorem discharge_soc_bounds {p : BatteryParams} (V : ValidParams p) {soc dt req : ℚ}
    (h1 : p.minSOC ≤ soc) (h2 : soc ≤ p.maxSOC) (hdt : 0 < dt)
    (hreq0 : 0 ≤ req) (hreqle : req ≤ maxDischargeEnergyToGridMWh p soc dt) :
    p.minSOC ≤ soc - req / p.dischargeEfficiency / p.energyCapacityMWh ∧
      soc - req / p.dischargeEfficiency / p.energyCapacityMWh ≤ p.maxSOC := by
  have hV := V
  obtain ⟨hcap, hPmax, -, ⟨heffD, -⟩, ⟨hm0, hmm, hM1⟩, -⟩ := hV
  constructor
  · have hle : req ≤ (soc - p.minSOC) * p.energyCapacityMWh * p.dischargeEfficiency := by
      have := hreqle.trans_eq (maxDischarge_eq V h1 hdt)
      exact this.trans (min_le_left _ _)
    have hdiv : req / p.dischargeEfficiency ≤ (soc - p.minSOC) * p.energyCapacityMWh := by
      rw [div_le_iff₀ heffD]
      linarith
    have hdiv2 : req / p.dischargeEfficiency / p.energyCapacityMWh ≤ soc - p.minSOC := by
      rw [div_le_iff₀ hcap]
      linarith
    linarith
  · have : 0 ≤ req / p.dischargeEfficiency / p.energyCapacityMWh :=
      div_nonneg (div_nonneg hreq0 heffD.le) hcap.le
    linarith

theorem div_add_mul_div_cancel {a b c : ℚ} (hb : b ≠ 0) :
    (a * b + c) / b = a + c / b := by
  field_simp

theorem sub_mul_div_cancel {a b c : ℚ} (hb : b ≠ 0) :
    (a * b - c) / b = a - c / b := by
  field_simp

theorem applyDispatchClipped_socEnd_bounds {p : BatteryParams} (V : ValidParams p)
    {soc dt : ℚ} (lmp pw : ℚ) (h1 : p.minSOC ≤ soc) (h2 : soc ≤ p.maxSOC) (hdt : 0 < dt) :
    p.minSOC ≤ (applyDispatchClipped p soc lmp pw dt).socEnd ∧
      (applyDispatchClipped p soc lmp pw dt).socEnd ≤ p.maxSOC := by
  have hV := V
  obtain ⟨hcap, hPmax, ⟨heffC, -⟩, ⟨heffD, -⟩, ⟨hm0, hmm, hM1⟩, -⟩ := hV
  have hcap0 : p.energyCapacityMWh ≠ 0 := ne_of_gt hcap
  simp only [applyDispatchClipped]
  split_ifs with hneg hclip hpos hclip2
  · -- charging, SOC-clipped
    have hb := charge_soc_bounds V h1 h2 hdt (maxCharge_nonneg p soc dt)
      (le_refl (maxChargeEnergyFromGridMWh p soc dt))
    rw [div_add_mul_div_cancel hcap0] at *
    rw [clamp01_eq_self V hb.1 hb.2]
    exact hb
  · -- charging, unclipped
    have hreq0 : 0 ≤ -pw * dt := mul_nonneg (by linarith) hdt.le
    have hb := charge_soc_bounds V h1 h2 hdt hreq0 (not_lt.mp hclip)
    rw [div_add_mul_div_cancel hcap0] at *
    rw [clamp01_eq_self V hb.1 hb.2]
    exact hb
  · -- discharging, SOC-clipped
    have hb := discharge_soc_bounds V h1 h2 hdt (maxDischarge_nonneg p soc dt)
      (le_refl (maxDischargeEnergyToGridMWh p soc dt))
    rw [sub_mul_div_cancel hcap0] at *
    rw [clamp01_eq_self V hb.1 hb.2]
    exact hb
  · -- discharging, unclipped
    have hreq0 : 0 ≤ pw * dt := mul_nonneg (by linarith) hdt.le
    have hb := discharge_soc_bounds V h1 h2 hdt hreq0 (not_lt.mp hclip2)
    rw [sub_mul_div_cancel hcap0] at *
    rw [clamp01_eq_self V hb.1 hb.2]
    exact hb
  · -- idle
    exact ⟨h1, h2⟩

theorem simulateInterval_eq_applyDispatchClipped {p : BatteryParams} (V : ValidParams p)
    {soc dt : ℚ} (pow lmp : ℚ) (h1 : p.minSOC ≤ soc) (h2 : soc ≤ p.maxSOC) (hdt : 0 < dt) :
    simulateInterval soc pow lmp dt p =
      ((applyDispatchClipped p soc lmp (clipDispatch p pow) dt).socEnd,
        (applyDispatchClipped p soc lmp (clipDispatch p pow) dt).powerMW,
        (applyDispatchClipped p soc lmp (clipDispatch p pow) dt).pnl) := by
  have hV := V
  obtain ⟨hcap, hPmax, ⟨heffC, -⟩, ⟨heffD, -⟩, ⟨hm0, hmm, hM1⟩, -⟩ := hV
  have hcap0 : p.energyCapacityMWh ≠ 0 := ne_of_gt hcap
  have hstorable : 0 ≤ (p.maxSOC - soc) * p.energyCapacityMWh :=
    mul_nonneg (by linarith) hcap.le
  have hwith : 0 ≤ (soc - p.minSOC) * p.energyCapacityMWh :=
    mul_nonneg (by linarith) hcap.le
  have hMC := (maxCharge_eq V h2 hdt).symm
  have hMD := (maxDischarge_eq V h1 hdt).symm
  simp only [simulateInterval, clipDispatch]
  set q := (if (if pow > p.powerCapacityMW then p.powerCapacityMW else pow) < -p.powerCapacityMW
      then -p.powerCapacityMW
      else if pow > p.powerCapacityMW then p.powerCapacityMW else pow) with hqdef
  simp only [applyDispatchClipped, calculateIntervalPnL]
  rcases lt_trichotomy q 0 with hq | hq | hq
  · simp only [if_pos hq, if_neg (not_lt.mpr hstorable)]
    rw [hMC]
    rcases lt_or_le (maxChargeEnergyFromGridMWh p soc dt) (-q * dt) with hclip | hclip
    · simp only
        [if_pos (⟨hclip, hdt⟩ : -q * dt > maxChargeEnergyFromGridMWh p soc dt ∧ dt > 0),
          if_pos hclip]
      have hb := charge_soc_bounds V h1 h2 hdt (maxCharge_nonneg p soc dt)
        (le_refl (maxChargeEnergyFromGridMWh p soc dt))
      rw [div_add_mul_div_cancel hcap0, clamp01_eq_self V hb.1 hb.2,
        if_neg (not_lt.mpr hb.1), if_neg (not_lt.mpr hb.2)]
    · simp only [if_neg (fun h => (not_lt.mpr hclip) h.1 : ¬(-q * dt >
          maxChargeEnergyFromGridMWh p soc dt ∧ dt > 0)), if_neg (not_lt.mpr hclip)]
      have hreq0 : 0 ≤ -q * dt := mul_nonneg (by linarith) hdt.le
      have hb := charge_soc_bounds V h1 h2 hdt hreq0 hclip
      rw [div_add_mul_div_cancel hcap0, clamp01_eq_self V hb.1 hb.2,
        if_neg (not_lt.mpr hb.1), if_neg (not_lt.mpr hb.2)]
  · simp only [if_neg (show ¬q < 0 by rw [hq]; exact lt_irrefl 0),
      if_neg (show ¬q > 0 by rw [hq]; exact lt_irrefl 0)]
    rw [if_neg (not_lt.mpr h1), if_neg (not_lt.mpr h2), hq]
  · simp only [if_neg (not_lt.mpr hq.le), if_pos hq, if_neg (not_lt.mpr hwith)]
    rw [hMD]
    rcases lt_or_le (maxDischargeEnergyToGridMWh p soc dt) (q * dt) with hclip | hclip
    · simp only
        [if_pos (⟨hclip, hdt⟩ : q * dt > maxDischargeEnergyToGridMWh p soc dt ∧ dt > 0),
          if_pos hclip]
      have hb := discharge_soc_bounds V h1 h2 hdt (maxDischarge_nonneg p soc dt)
        (le_refl (maxDischargeEnergyToGridMWh p soc dt))
      rw [sub_mul_div_cancel hcap0, clamp01_eq_self V hb.1 hb.2,
        if_neg (not_lt.mpr hb.1), if_neg (not_lt.mpr hb.2)]
    · simp only [if_neg (fun h => (not_lt.mpr hclip) h.1 : ¬(q * dt >
          maxDischargeEnergyToGridMWh p soc dt ∧ dt > 0)), if_neg (not_lt.mpr hclip)]
      have hreq0 : 0 ≤ q * dt := mul_nonneg hq.le hdt.le
      have hb := discharge_soc_bounds V h1 h2 hdt hreq0 hclip
      rw [sub_mul_div_cancel hcap0, clamp01_eq_self V hb.1 hb.2,
        if_neg (not_lt.mpr hb.1), if_neg (not_lt.mpr hb.2)]

theorem socAfterSteps_bounds {p : BatteryParams} (V : ValidParams p)
    (steps : List (ℚ × ℚ × ℚ)) : ∀ soc0 : ℚ, p.minSOC ≤ soc0 → soc0 ≤ p.maxSOC →
    (∀ s ∈ steps, 0 < s.2.2) →
    p.minSOC ≤ socAfterSteps p soc0 steps ∧ socAfterSteps p soc0 steps ≤ p.maxSOC := by
  induction steps with
  | nil => exact fun soc0 h1 h2 _ => ⟨h1, h2⟩
  | cons st rest ih =>
    intro soc0 h1 h2 hdts
    have hdt : 0 < st.2.2 := hdts st (List.mem_cons_self st rest)
    have hstep : (applyDispatchState p soc0 st.2.1 st.1 st.2.2).2 =
        (applyDispatchClipped p soc0 st.2.1 (clipDispatch p st.1) st.2.2).socEnd := by
      unfold applyDispatchState applyDispatch
      rw [if_neg (not_le.mpr hdt)]
    have hb := applyDispatchClipped_socEnd_bounds V st.2.1 (clipDispatch p st.1) h1 h2 hdt
    have hrest : ∀ s ∈ rest, 0 < s.2.2 := fun s hs => hdts s (List.mem_cons_of_mem st hs)
    have : socAfterSteps p soc0 (st :: rest) =
        socAfterSteps p ((applyDispatchState p soc0 st.2.1 st.1 st.2.2).2) rest := by
      simp [socAfterSteps]
    rw [this, hstep]
    exact ih _ hb.1 hb.2 hrest

/-- The battery of the worked examples: 1 MWh, 1 MW, lossless, SOC range
[0, 1], no degradation cost. -/
def sampleBattery : BatteryParams :=
  ⟨1, 1, 1, 1, 0, 1, 0⟩

/-- C1: for every valid battery parameter set, every SOC in
[minSOC, maxSOC], every requested power, every LMP and every duration
dt > 0, the oracle DP's pure step `simulateInterval` returns exactly the
same next SOC, realized power and pnl as `Battery.ApplyDispatch` applied
from the same SOC with the same dispatch, LMP and duration. -/
theorem simulateInterval_refines_applyDispatch
    (p : BatteryParams) (soc pow lmp dt : ℚ) (V : ValidParams p)
    (h1 : p.minSOC ≤ soc) (h2 : soc ≤ p.maxSOC) (hdt : 0 < dt) :
    (applyDispatch p soc lmp pow dt).map (fun r => (r.socEnd, r.powerMW, r.pnl)) =
      some (simulateInterval soc pow lmp dt p) := by
  unfold applyDispatch
  rw [if_neg (not_le.mpr hdt), simulateInterval_eq_applyDispatchClipped V pow lmp h1 h2 hdt]
  rfl

/-- Witness for C1 at a concrete charging step of the sample battery. -/
theorem simulateInterval_refines_applyDispatch_witness :
    ValidParams sampleBattery ∧
      (applyDispatch sampleBattery (1 / 2) 10 (-1) 1).map
          (fun r => (r.socEnd, r.powerMW, r.pnl)) =
        some (simulateInterval (1 / 2) (-1) 10 1 sampleBattery) :=
  ⟨by with_unfolding_all decide, simulateInterval_refines_applyDispatch sampleBattery (1 / 2) (-1) 10 1
    (by with_unfolding_all decide) (by with_unfolding_all decide) (by with_unfolding_all decide) (by with_unfolding_all decide)⟩

/-- C2: for every valid battery starting inside [minSOC, maxSOC] and every
sequence of `ApplyDispatch` steps with arbitrary requested powers, LMPs and
positive durations, the SOC stays within [minSOC, maxSOC] after every
interval (every prefix of the step sequence). -/
theorem soc_stays_within_bounds
    (p : BatteryParams) (soc0 : ℚ) (steps : List (ℚ × ℚ × ℚ)) (n : ℕ)
    (V : ValidParams p) (h1 : p.minSOC ≤ soc0) (h2 : soc0 ≤ p.maxSOC)
    (hdts : ∀ s ∈ steps, 0 < s.2.2) :
    p.minSOC ≤ socAfterSteps p soc0 (steps.take n) ∧
      socAfterSteps p soc0 (steps.take n) ≤ p.maxSOC :=
  socAfterSteps_bounds V (steps.take n) soc0 h1 h2
    (fun s hs => hdts s (List.mem_of_mem_take hs))

/-- Witness for C2: two steps of the sample battery, checked after the first
interval. -/
theorem soc_stays_within_bounds_witness :
    ValidParams sampleBattery ∧
      sampleBattery.minSOC ≤ socAfterSteps sampleBattery (1 / 2)
          (([(-1, 10, 1), (1, 100, 1)] : List (ℚ × ℚ × ℚ)).take 1) ∧
        socAfterSteps sampleBattery (1 / 2)
            (([(-1, 10, 1), (1, 100, 1)] : List (ℚ × ℚ × ℚ)).take 1) ≤
          sampleBattery.maxSOC :=
  ⟨by with_unfolding_all decide, soc_stays_within_bounds sampleBattery (1 / 2) [(-1, 10, 1), (1, 100, 1)] 1
    (by with_unfolding_all decide) (by with_unfolding_all decide) (by with_unfolding_all decide) (by intro s hs; fin_cases hs <;> norm_num)⟩

/-- C3: for a single `ApplyDispatch` step of a valid battery with dt > 0, if
the realized power is negative then
`(socEnd - socStart) * energyCapacity = energyFromGrid * chargeEfficiency`,
and if it is positive then
`(socStart - socEnd) * energyCapacity = energyToGrid / dischargeEfficiency`,
exactly (in exact arithmetic). -/
theorem apply_dispatch_energy_balance
    (p : BatteryParams) (soc pow lmp dt : ℚ) (r : IntervalResult) (V : ValidParams p)
    (h1 : p.minSOC ≤ soc) (h2 : soc ≤ p.maxSOC) (hdt : 0 < dt)
    (hr : applyDispatch p soc lmp pow dt = some r) :
    (r.powerMW < 0 →
      (r.socEnd - r.socStart) * p.energyCapacityMWh =
        r.energyFromGridMWh * p.chargeEfficiency) ∧
    (0 < r.powerMW →
      (r.socStart - r.socEnd) * p.energyCapacityMWh =
        r.energyToGridMWh / p.dischargeEfficiency) := by
  have hV := V
  obtain ⟨hcap, hPmax, ⟨heffC, -⟩, ⟨heffD, -⟩, ⟨hm0, hmm, hM1⟩, -⟩ := hV
  have hcap0 : p.energyCapacityMWh ≠ 0 := ne_of_gt hcap
  have hrr : r = applyDispatchClipped p soc lmp (clipDispatch p pow) dt := by
    unfold applyDispatch at hr
    rw [if_neg (not_le.mpr hdt)] at hr
    exact (Option.some.inj hr).symm
  subst hrr
  simp only [applyDispatchClipped]
  set q := clipDispatch p pow with hqdef
  rcases lt_trichotomy q 0 with hq | hq | hq
  · simp only [if_pos hq]
    rcases lt_or_le (maxChargeEnergyFromGridMWh p soc dt) (-q * dt) with hclip | hclip
    · simp only [if_pos hclip]
      have hb := charge_soc_bounds V h1 h2 hdt (maxCharge_nonneg p soc dt)
        (le_refl (maxChargeEnergyFromGridMWh p soc dt))
      rw [div_add_mul_div_cancel hcap0, clamp01_eq_self V hb.1 hb.2]
      constructor
      · intro _
        field_simp
        ring
      · intro hpos
        exfalso
        have h0 : 0 ≤ maxChargeEnergyFromGridMWh p soc dt / dt :=
          div_nonneg (maxCharge_nonneg p soc dt) hdt.le
        have hle : -maxChargeEnergyFromGridMWh p soc dt / dt ≤ 0 := by
          rw [neg_div]
          linarith
        exact absurd (lt_of_lt_of_le hpos hle) (lt_irrefl 0)
    · simp only [if_neg (not_lt.mpr hclip)]
      have hreq0 : 0 ≤ -q * dt := mul_nonneg (by linarith) hdt.le
      have hb := charge_soc_bounds V h1 h2 hdt hreq0 hclip
      rw [div_add_mul_div_cancel hcap0, clamp01_eq_self V hb.1 hb.2]
      constructor
      · intro _
        field_simp
        ring
      · intro hpos
        exact absurd hpos (not_lt.mpr hq.le)
  · simp only [if_neg (show ¬q < 0 by rw [hq]; exact lt_irrefl 0),
      if_neg (show ¬q > 0 by rw [hq]; exact lt_irrefl 0)]
    exact ⟨fun h => absurd h (lt_irrefl 0), fun h => absurd h (lt_irrefl 0)⟩
  · simp only [if_neg (not_lt.mpr hq.le), if_pos hq]
    rcases lt_or_le (maxDischargeEnergyToGridMWh p soc dt) (q * dt) with hclip | hclip
    · simp only [if_pos hclip]
      have hb := discharge_soc_bounds V h1 h2 hdt (maxDischarge_nonneg p soc dt)
        (le_refl (maxDischargeEnergyToGridMWh p soc dt))
      rw [sub_mul_div_cancel hcap0, clamp01_eq_self V hb.1 hb.2]
      constructor
      · intro hneg
        exfalso
        have : 0 ≤ maxDischargeEnergyToGridMWh p soc dt / dt :=
          div_nonneg (maxDischarge_nonneg p soc dt) hdt.le
        exact absurd (lt_of_le_of_lt this hneg) (lt_irrefl 0)
      · intro _
        field_simp
        ring
    · simp only [if_neg (not_lt.mpr hclip)]
      have hreq0 : 0 ≤ q * dt := mul_nonneg hq.le hdt.le
      have hb := discharge_soc_bounds V h1 h2 hdt hreq0 hclip
      rw [sub_mul_div_cancel hcap0, clamp01_eq_self V hb.1 hb.2]
      constructor
      · intro hneg
        exact absurd hneg (not_lt.mpr hq.le)
      · intro _
        field_simp
        ring

/-- Witness for C3 at a concrete discharging step of the sample battery. -/
theorem apply_dispatch_energy_balance_witness :
    ValidParams sampleBattery ∧
      ((applyDispatchClipped sampleBattery (1 / 2) 100 1 1).powerMW < 0 →
        ((applyDispatchClipped sampleBattery (1 / 2) 100 1 1).socEnd -
            (applyDispatchClipped sampleBattery (1 / 2) 100 1 1).socStart) *
          sampleBattery.energyCapacityMWh =
          (applyDispatchClipped sampleBattery (1 / 2) 100 1 1).energyFromGridMWh *
            sampleBattery.chargeEfficiency) ∧
      (0 < (applyDispatchClipped sampleBattery (1 / 2) 100 1 1).powerMW →
        ((applyDispatchClipped sampleBattery (1 / 2) 100 1 1).socStart -
            (applyDispatchClipped sampleBattery (1 / 2) 100 1 1).socEnd) *
          sampleBattery.energyCapacityMWh =
          (applyDispatchClipped sampleBattery (1 / 2) 100 1 1).energyToGridMWh /
            sampleBattery.dischargeEfficiency) := by
  refine ⟨by with_unfolding_all decide, ?_⟩
  have h := apply_dispatch_energy_balance sampleBattery (1 / 2) 1 100 1
    (applyDispatchClipped sampleBattery (1 / 2) 100 (clipDispatch sampleBattery 1) 1)
    (by with_unfolding_all decide) (by with_unfolding_all decide) (by with_unfolding_all decide) (by with_unfolding_all decide) rfl
  have hclip : clipDispatch sampleBattery 1 = 1 := by with_unfolding_all decide
  rw [hclip] at h
  exact h

theorem runAux_none_of_bad_duration (p : BatteryParams) (strat : ℕ → LMPInterval → FPow) :
    ∀ (l : List LMPInterval) (idx : ℕ) (soc cum : ℚ),
    (∃ it ∈ l, it.durationHours ≤ 0) → runAux p strat l idx soc cum = none := by
  intro l
  induction l with
  | nil =>
    intro idx soc cum hbad
    obtain ⟨it, hmem, -⟩ := hbad
    exact absurd hmem (List.not_mem_nil it)
  | cons x rest ih =>
    intro idx soc cum hbad
    simp only [runAux]
    rcases le_or_lt x.durationHours 0 with hx | hx
    · rw [show applyDispatchFP p soc x.lmp (strat idx x) x.durationHours = none from by
        unfold applyDispatchFP; rw [if_pos hx]]
    · obtain ⟨it, hmem, hdt⟩ := hbad
      rcases List.mem_cons.mp hmem with rfl | hmem2
      · exact absurd hdt (not_le.mpr hx)
      · cases happ : applyDispatchFP p soc x.lmp (strat idx x) x.durationHours with
        | none => rfl
        | some res =>
          dsimp only
          rw [ih (idx + 1) res.socEnd (cum + res.pnl) ⟨it, hmem2, hdt⟩]

/-- C10: `ApplyDispatch` called with a non-positive duration returns an
error and leaves the battery SOC unchanged, and any interval with a
non-positive duration makes the whole engine run fail. -/
theorem nonpositive_duration_fails_without_mutation :
    (∀ (p : BatteryParams) (soc lmp pow dt : ℚ), dt ≤ 0 →
      applyDispatchState p soc lmp pow dt = (none, soc)) ∧
    (∀ (intervals : List LMPInterval) (p : BatteryParams) (soc0 : ℚ)
      (strat : ℕ → LMPInterval → FPow),
      (∃ it ∈ intervals, it.durationHours ≤ 0) →
      run intervals p soc0 strat = none) := by
  constructor
  · intro p soc lmp pow dt hdt
    unfold applyDispatchState applyDispatch
    rw [if_pos hdt]
  · intro intervals p soc0 strat hbad
    have hne : intervals ≠ [] := by
      obtain ⟨it, hmem, -⟩ := hbad
      intro h0
      rw [h0] at hmem
      exact absurd hmem (List.not_mem_nil it)
    unfold run
    rw [if_neg hne]
    exact runAux_none_of_bad_duration p strat intervals 0 soc0 0 hbad

/-- Witness for C10 at duration zero, and an engine run over one zero-length
interval. -/
theorem nonpositive_duration_fails_without_mutation_witness :
    applyDispatchState sampleBattery (1 / 2) 10 5 0 = (none, 1 / 2) ∧
      run [⟨10, 0, 0, 0⟩] sampleBattery (1 / 2) (fun _ _ => FPow.fin 0) = none := by
  constructor
  · exact nonpositive_duration_fails_without_mutation.1 sampleBattery (1 / 2) 10 5 0 le_rfl
  · exact nonpositive_duration_fails_without_mutation.2 [⟨10, 0, 0, 0⟩] sampleBattery (1 / 2)
      (fun _ _ => FPow.fin 0) ⟨⟨10, 0, 0, 0⟩, List.mem_singleton_self _, le_rfl⟩

theorem runAux_isSome_of_pos_durations (p : BatteryParams) (strat : ℕ → LMPInterval → FPow) :
    ∀ (l : List LMPInterval) (idx : ℕ) (soc cum : ℚ),
    (∀ it ∈ l, 0 < it.durationHours) → (runAux p strat l idx soc cum).isSome = true := by
  intro l
  induction l with
  | nil => intro idx soc cum _; rfl
  | cons x rest ih =>
    intro idx soc cum hdts
    have hx : 0 < x.durationHours := hdts x (List.mem_cons_self x rest)
    simp only [runAux]
    cases happ : applyDispatchFP p soc x.lmp (strat idx x) x.durationHours with
    | none =>
      exfalso
      unfold applyDispatchFP at happ
      rw [if_neg (not_le.mpr hx)] at happ
      exact Option.noConfusion happ
    | some res =>
      dsimp only
      have hrest := ih (idx + 1) res.socEnd (cum + res.pnl)
        (fun it hit => hdts it (List.mem_cons_of_mem x hit))
      cases hrec : runAux p strat rest (idx + 1) res.socEnd (cum + res.pnl) with
      | none => rw [hrec] at hrest; exact absurd hrest (by simp)
      | some out =>
        obtain ⟨rows, total, finalSOC⟩ := out
        rfl

/-- C4 (amended): the engine does not fail on a non-finite strategy power.
A run over non-empty intervals with positive durations always produces a
result, whatever the strategy returns; a NaN request is treated as idle
(realized power 0, no energy moved, SOC unchanged), and ±infinity behaves
exactly as the request `±PowerCapacityMW`. -/
theorem run_tolerates_nonfinite_power :
    (∀ (intervals : List LMPInterval) (p : BatteryParams) (soc0 : ℚ)
        (strat : ℕ → LMPInterval → FPow),
      intervals ≠ [] → (∀ it ∈ intervals, 0 < it.durationHours) →
      (run intervals p soc0 strat).isSome = true) ∧
    (∀ (p : BatteryParams) (soc lmp dt : ℚ), 0 < dt →
      applyDispatchFP p soc lmp FPow.nan dt =
        some ⟨0, 0, 0, 0, soc, soc, calculateIntervalPnL p lmp 0 0⟩) ∧
    (∀ (p : BatteryParams) (soc lmp dt : ℚ),
      applyDispatchFP p soc lmp FPow.posInf dt =
        applyDispatch p soc lmp p.powerCapacityMW dt) ∧
    (∀ (p : BatteryParams) (soc lmp dt : ℚ),
      applyDispatchFP p soc lmp FPow.negInf dt =
        applyDispatch p soc lmp (-p.powerCapacityMW) dt) := by
  refine ⟨?_, ?_, ?_, ?_⟩
  · intro intervals p soc0 strat hne hdts
    unfold run
    rw [if_neg hne]
    exact runAux_isSome_of_pos_durations p strat intervals 0 soc0 0 hdts
  · intro p soc lmp dt hdt
    unfold applyDispatchFP
    rw [if_neg (not_le.mpr hdt)]
    rfl
  · intro p soc lmp dt
    unfold applyDispatchFP applyDispatch clipDispatchFP clipDispatch fpGt fpLt
    rcases le_or_lt dt 0 with hdt | hdt
    · rw [if_pos hdt, if_pos hdt]
    · rw [if_neg (not_le.mpr hdt), if_neg (not_le.mpr hdt)]
      simp only [decide_eq_true_eq, gt_iff_lt, lt_irrefl, if_true, if_false]
      split_ifs with h1 <;> rfl
  · intro p soc lmp dt
    unfold applyDispatchFP applyDispatch clipDispatchFP clipDispatch fpGt fpLt
    rcases le_or_lt dt 0 with hdt | hdt
    · rw [if_pos hdt, if_pos hdt]
    · rw [if_neg (not_le.mpr hdt), if_neg (not_le.mpr hdt)]
      rcases lt_trichotomy p.powerCapacityMW 0 with hcap | hcap | hcap
      · have hgt : -p.powerCapacityMW > p.powerCapacityMW := by linarith
        have hlt : p.powerCapacityMW < -p.powerCapacityMW := by linarith
        simp only [if_pos hgt, if_pos hlt, decide_eq_true_eq, if_true]
        rfl
      · simp only [hcap, neg_zero, gt_iff_lt, lt_irrefl, if_false, decide_eq_true_eq]
        rfl
      · have hngt : ¬(-p.powerCapacityMW > p.powerCapacityMW) := by
          simp only [gt_iff_lt, not_lt]; linarith
        have hnlt : ¬(-p.powerCapacityMW < -p.powerCapacityMW) := lt_irrefl _
        simp only [if_neg hngt, if_neg hnlt, decide_eq_true_eq]
        rfl

/-- Witness for C4 (amended): a one-interval NaN run of the sample battery
produces a result. -/
theorem run_tolerates_nonfinite_power_witness :
    (run [⟨10, 1, 0, 0⟩] sampleBattery (1 / 2) (fun _ _ => FPow.nan)).isSome = true :=
  run_tolerates_nonfinite_power.1 [⟨10, 1, 0, 0⟩] sampleBattery (1 / 2) (fun _ _ => FPow.nan)
    (by simp) (by
      intro it hit
      rw [List.mem_singleton] at hit
      subst hit
      norm_num)

/-- Counterexample to C4 as stated: a strategy that returns NaN on the only
interval still yields a successful run (an idle ledger row), not an error. -/
theorem run_with_nan_strategy_succeeds :
    run [⟨10, 1, 0, 0⟩] sampleBattery (1 / 2) (fun _ _ => FPow.nan) =
      some ([⟨0, 10, Action.idle, FPow.nan, 0, 0, 0, 0, 1 / 2, 1 / 2, 0, 0⟩], 0, 1 / 2) := by
  with_unfolding_all decide

theorem runAux_cum_spec (p : BatteryParams) (strat : ℕ → LMPInterval → FPow) :
    ∀ (l : List LMPInterval) (idx : ℕ) (soc cum : ℚ)
      (rows : List LedgerRow) (total finalSOC : ℚ),
    runAux p strat l idx soc cum = some (rows, total, finalSOC) →
    total = cum + (rows.map LedgerRow.pnl).sum ∧
      ∀ i (hi : i < rows.length),
        (rows.get ⟨i, hi⟩).cumPNL = cum + ((rows.take (i + 1)).map LedgerRow.pnl).sum := by
  intro l
  induction l with
  | nil =>
    intro idx soc cum rows total finalSOC h
    simp only [runAux] at h
    have h2 := Option.some.inj h
    have hr : rows = [] := (congrArg Prod.fst h2).symm
    have ht : total = cum := by
      have := congrArg Prod.snd h2
      exact (congrArg Prod.fst this).symm
    subst hr
    subst ht
    constructor
    · simp
    · intro i hi
      simp at hi
  | cons x rest ih =>
    intro idx soc cum rows total finalSOC h
    simp only [runAux] at h
    cases happ : applyDispatchFP p soc x.lmp (strat idx x) x.durationHours with
    | none => rw [happ] at h; exact Option.noConfusion h
    | some res =>
      rw [happ] at h
      dsimp only at h
      cases hrec : runAux p strat rest (idx + 1) res.socEnd (cum + res.pnl) with
      | none => rw [hrec] at h; exact Option.noConfusion h
      | some out =>
        obtain ⟨rows', total', finalSOC'⟩ := out
        rw [hrec] at h
        dsimp only at h
        have hinj := Option.some.inj h
        have hrows : rows = (⟨idx, x.lmp, actionFromPowerMW res.powerMW, strat idx x,
            res.powerMW, res.energyFromGridMWh, res.energyToGridMWh, res.throughputMWh,
            res.socStart, res.socEnd, res.pnl, cum + res.pnl⟩ : LedgerRow) :: rows' :=
          (congrArg Prod.fst hinj).symm
        have htot : total = total' := by
          have := congrArg Prod.snd hinj
          exact (congrArg Prod.fst this).symm
        have hih := ih (idx + 1) res.socEnd (cum + res.pnl) rows' total' finalSOC' hrec
        subst hrows htot
        constructor
        · rw [hih.1, List.map_cons, List.sum_cons]
          ring
        · intro i hi
          cases i with
          | zero =>
            simp only [List.get, List.take, List.map_cons, List.sum_cons]
            simp
          | succ j =>
            have hj : j < rows'.length := by
              simpa using hi
            have := hih.2 j hj
            simp only [List.get_cons_succ, List.take_succ_cons, List.map_cons, List.sum_cons]
            rw [this]
            ring

/-- C9: for every successful engine run, every ledger row's cumulative PnL
is the sum of the PnL of all rows up to and including it, and the result's
total PnL equals the last row's cumulative PnL. -/
theorem ledger_cum_pnl_prefix_sums
    (intervals : List LMPInterval) (p : BatteryParams) (soc0 : ℚ)
    (strat : ℕ → LMPInterval → FPow) (ledger : List LedgerRow) (total finalSOC : ℚ)
    (h : run intervals p soc0 strat = some (ledger, total, finalSOC)) :
    (∀ i (hi : i < ledger.length),
      (ledger.get ⟨i, hi⟩).cumPNL = ((ledger.take (i + 1)).map LedgerRow.pnl).sum) ∧
    (∀ lastRow, ledger.getLast? = some lastRow → total = lastRow.cumPNL) := by
  have hne : intervals ≠ [] := by
    intro h0
    rw [h0] at h
    unfold run at h
    rw [if_pos rfl] at h
    exact Option.noConfusion h
  unfold run at h
  rw [if_neg hne] at h
  have hspec := runAux_cum_spec p strat intervals 0 soc0 0 ledger total finalSOC h
  constructor
  · intro i hi
    have := hspec.2 i hi
    rwa [zero_add] at this
  · intro lastRow hlast
    have hne2 : ledger ≠ [] := by
      intro h0
      rw [h0] at hlast
      simp at hlast
    have hlen : 0 < ledger.length := List.length_pos.mpr hne2
    have hidx : ledger.length - 1 < ledger.length := Nat.sub_lt hlen Nat.one_pos
    have hgl : lastRow = ledger.get ⟨ledger.length - 1, hidx⟩ := by
      rw [List.getLast?_eq_getLast ledger hne2] at hlast
      have := Option.some.inj hlast
      rw [← this, List.getLast_eq_get]
    have hcum := hspec.2 (ledger.length - 1) hidx
    rw [zero_add] at hcum
    have htake : ledger.length - 1 + 1 = ledger.length := Nat.sub_add_cancel hlen
    rw [htake, List.take_length] at hcum
    rw [hgl, hcum, hspec.1, zero_add]

/-- The ledger row produced by an idle one-interval run of the sample
battery, used by concrete witnesses. -/
def idleRowExample : LedgerRow :=
  ⟨0, 10, Action.idle, FPow.fin 0, 0, 0, 0, 0, 1 / 2, 1 / 2, 0, 0⟩

/-- Witness for C9: a one-interval idle run of the sample battery; the single
row's cumulative PnL is its own prefix sum and the total equals it. -/
theorem ledger_cum_pnl_prefix_sums_witness :
    idleRowExample.cumPNL = (([idleRowExample].take 1).map LedgerRow.pnl).sum ∧
      (0 : ℚ) = idleRowExample.cumPNL := by
  have h := ledger_cum_pnl_prefix_sums [⟨10, 1, 0, 0⟩] sampleBattery (1 / 2)
    (fun _ _ => FPow.fin 0) [idleRowExample] 0 (1 / 2) (by with_unfolding_all decide)
  exact ⟨h.1 0 (by norm_num), h.2 idleRowExample (by simp)⟩

/-- C7: the schedule window test is empty when start = end, is the plain
half-open window when start < end, and wraps across midnight when
start > end; the decision charges at `-|chargePower|` whenever the minute is
in the charge window (tested first), discharges at `+|dischargePower|` when
it is only in the discharge window, and idles otherwise. -/
theorem schedule_window_semantics (t cs ce ds de : ℕ) (cp dpw : ℚ) :
    (cs = ce → inWindow t cs ce = false) ∧
    (cs < ce → (inWindow t cs ce = true ↔ (cs ≤ t ∧ t < ce))) ∧
    (ce < cs → (inWindow t cs ce = true ↔ (t ≥ cs ∨ t < ce))) ∧
    (inWindow t cs ce = true →
      scheduleDecide ⟨cs, ce, ds, de, cp, dpw⟩ t = -|cp|) ∧
    (inWindow t cs ce = false → inWindow t ds de = true →
      scheduleDecide ⟨cs, ce, ds, de, cp, dpw⟩ t = |dpw|) ∧
    (inWindow t cs ce = false → inWindow t ds de = false →
      scheduleDecide ⟨cs, ce, ds, de, cp, dpw⟩ t = 0) := by
  refine ⟨?_, ?_, ?_, ?_, ?_, ?_⟩
  · intro h
    simp [inWindow, h]
  · intro h
    simp [inWindow, Nat.ne_of_lt h, h]
  · intro h
    have hne : cs ≠ ce := (Nat.ne_of_lt h).symm
    have hnlt : ¬cs < ce := Nat.not_lt.mpr h.le
    simp [inWindow, hne, hnlt, ge_iff_le]
  · intro h
    simp [scheduleDecide, h]
  · intro h1 h2
    simp [scheduleDecide, h1, h2]
  · intro h1 h2
    simp [scheduleDecide, h1, h2]

/-- Witness for C7: a wrap-around charge window 22:00 to 02:00 matched at
22:30 against the decision. -/
theorem schedule_window_semantics_witness :
    inWindow 1350 1320 120 = true ∧
      scheduleDecide ⟨1320, 120, 120, 240, 5, 7⟩ 1350 = -5 := by
  have h := schedule_window_semantics 1350 1320 120 120 240 5 7
  have hw : inWindow 1350 1320 120 = true :=
    (h.2.2.1 (by norm_num)).mpr (Or.inl (by norm_num))
  refine ⟨hw, ?_⟩
  have hd := h.2.2.2.1 hw
  rw [hd]
  norm_num

theorem chunkByDay_flatten : ∀ l : List LMPInterval, (chunkByDay l).flatten = l := by
  intro l
  induction l with
  | nil => rfl
  | cons x xs ih =>
    simp only [chunkByDay]
    cases hc : chunkByDay xs with
    | nil =>
      rw [hc] at ih
      simp only [List.flatten] at ih
      simp [List.flatten, ← ih]
    | cons g gs =>
      cases g with
      | nil =>
        rw [hc] at ih
        simp only [List.flatten_cons] at ih ⊢
        simp only [List.nil_append] at ih
        simp [ih]
      | cons y ys =>
        rw [hc] at ih
        dsimp only
        by_cases hkey : x.dayKey = y.dayKey
        · rw [if_pos hkey]
          simp only [List.flatten_cons] at ih ⊢
          simp [← ih]
        · rw [if_neg hkey]
          simp only [List.flatten_cons] at ih ⊢
          simp [← ih]

theorem reconstructPlan_aux_length (rows : List (List (ℤ × ℚ))) :
    ∀ acc : List ℚ × ℕ,
    ((rows.foldl
      (fun (acc : List ℚ × ℕ) row =>
        let c := row.getD acc.2 (-1, 0)
        if c.1 < 0 then (acc.1 ++ [0], acc.2)
        else (acc.1 ++ [c.2], c.1.toNat)) acc).1).length = acc.1.length + rows.length := by
  induction rows with
  | nil => intro acc; simp
  | cons row rest ih =>
    intro acc
    simp only [List.foldl_cons]
    rw [ih]
    split_ifs <;> simp <;> omega

theorem reconstructPlan_length (rows : List (List (ℤ × ℚ))) (initIdx : ℕ) :
    (reconstructPlan rows initIdx).length = rows.length := by
  unfold reconstructPlan
  rw [reconstructPlan_aux_length rows ([], initIdx)]
  simp

theorem dpForward_spec (p : BatteryParams) (socSteps : ℕ) (actions : List ℚ) :
    ∀ (l : List LMPInterval) (dp : List ℚ), (∀ it ∈ l, 0 < it.durationHours) →
    ∃ dpF rows, dpForward p socSteps actions l dp = some (dpF, rows) ∧
      rows.length = l.length := by
  intro l
  induction l with
  | nil =>
    intro dp _
    exact ⟨dp, [], rfl, rfl⟩
  | cons x rest ih =>
    intro dp hdts
    have hx : 0 < x.durationHours := hdts x (List.mem_cons_self x rest)
    obtain ⟨dpF, rows, hrec, hlen⟩ :=
      ih (dpStep p socSteps actions x.lmp x.durationHours dp).1
        (fun it hit => hdts it (List.mem_cons_of_mem x hit))
    refine ⟨dpF, (dpStep p socSteps actions x.lmp x.durationHours dp).2 :: rows, ?_, ?_⟩
    · simp only [dpForward]
      rw [if_neg (not_le.mpr hx), hrec]
    · simp [hlen]

theorem optimizeDP_spec (g : List LMPInterval) (p : BatteryParams) (initialSOC : ℚ)
    (socSteps0 powerSteps : ℕ) (hdts : ∀ it ∈ g, 0 < it.durationHours) :
    ∃ plan, optimizeDP g p initialSOC socSteps0 powerSteps = some plan ∧
      plan.length = g.length := by
  simp only [optimizeDP]
  obtain ⟨dpF, rows, hrec, hlen⟩ := dpForward_spec p
    (if socSteps0 < 2 then 2 else socSteps0) (dpActions p powerSteps) g
    ((List.replicate ((if socSteps0 < 2 then 2 else socSteps0) + 1) negInfValue).set
      (socToIdx p (if socSteps0 < 2 then 2 else socSteps0) initialSOC) 0) hdts
  rw [hrec]
  exact ⟨_, rfl, by rw [reconstructPlan_length, hlen]⟩

theorem planDays_spec (p : BatteryParams) (initialSOC : ℚ) (socSteps powerSteps : ℕ) :
    ∀ gs : List (List LMPInterval), (∀ g ∈ gs, ∀ it ∈ g, 0 < it.durationHours) →
    ∃ plan, planDays p initialSOC socSteps powerSteps gs = some plan ∧
      plan.length = (gs.map List.length).sum := by
  intro gs
  induction gs with
  | nil => intro _; exact ⟨[], rfl, rfl⟩
  | cons g rest ih =>
    intro hall
    obtain ⟨d, hd, hdlen⟩ := optimizeDP_spec g p initialSOC socSteps powerSteps
      (hall g (List.mem_cons_self g rest))
    obtain ⟨plan, hplan, hplen⟩ := ih (fun g2 hg2 => hall g2 (List.mem_cons_of_mem g hg2))
    refine ⟨d ++ plan, ?_, ?_⟩
    · simp only [planDays]
      rw [hd, hplan]
    · simp [hdlen, hplen]

/-- C5: for every non-empty interval sequence with positive durations,
`NewOracleStrategy` succeeds and its plan has exactly one dispatch per input
interval: the concatenation of the per-day plans has length equal to the
interval count. -/
theorem oracle_plan_length
    (intervals : List LMPInterval) (p : BatteryParams) (initialSOC : ℚ)
    (cfgSocSteps cfgPowerSteps : ℤ) (hne : intervals ≠ [])
    (hdts : ∀ it ∈ intervals, 0 < it.durationHours) :
    (newOracleStrategy intervals p initialSOC cfgSocSteps cfgPowerSteps).map List.length =
      some intervals.length := by
  unfold newOracleStrategy optimizeDPByDay
  rw [if_neg hne, if_neg hne]
  obtain ⟨plan, hplan, hplen⟩ := planDays_spec p initialSOC
    (if cfgSocSteps ≤ 0 then 200 else cfgSocSteps).toNat
    (if cfgPowerSteps ≤ 0 then 10 else cfgPowerSteps).toNat
    (chunkByDay intervals)
    (by
      intro g hg it hit
      exact hdts it (by
        rw [← chunkByDay_flatten intervals]
        exact List.mem_flatten.mpr ⟨g, hg, hit⟩))
  rw [hplan]
  have hlen2 : plan.length = intervals.length := by
    rw [hplen, ← List.length_flatten, chunkByDay_flatten]
  dsimp only
  rw [if_neg (by rw [hlen2]; exact fun h => h rfl)]
  simp [hlen2]

/-- The two-interval single-day price series of the oracle examples: one
hour at 10 $/MWh then one hour at 100 $/MWh. -/
def oracleExampleIntervals : List LMPInterval :=
  [⟨10, 1, 0, 0⟩, ⟨100, 1, 60, 0⟩]

/-- Witness for C5: the oracle plan over the example day has one dispatch
per interval. -/
theorem oracle_plan_length_witness :
    (newOracleStrategy oracleExampleIntervals sampleBattery (1 / 2) 2 1).map List.length =
      some 2 := by
  have h := oracle_plan_length oracleExampleIntervals sampleBattery (1 / 2) 2 1
    (by simp [oracleExampleIntervals])
    (by
      intro it hit
      simp only [oracleExampleIntervals, List.mem_cons, List.mem_singleton] at hit
      rcases hit with rfl | hit2
      · norm_num
      · rcases hit2 with rfl | h3
        · norm_num
        · exact absurd h3 (List.not_mem_nil it))
  simpa [oracleExampleIntervals] using h

/-- The schedule of the oracle comparison example: charge 00:00-01:00,
discharge 01:00-02:00, 1 MW each way. -/
def oracleExampleSchedule : ScheduleTimes :=
  ⟨0, 60, 60, 120, 1, 1⟩

/-- C6 (code bug evidence): on the example day (prices 10 then 100, sample
battery, initial SOC 1/2, SOC grid of 2 steps, one power step) the oracle
plan discharges immediately at price 10 and then idles, because the forward
reconstruction records the action with the best immediate PnL instead of
following the DP table; the engine replay of that plan earns 5 while the
charge-then-discharge schedule earns 95, and the DP table's own final
optimum is 95.  This contradicts `oracle_total_pnl ≥ schedule_total_pnl`. -/
theorem oracle_loses_to_schedule_on_example :
    newOracleStrategy oracleExampleIntervals sampleBattery (1 / 2) 2 1 =
      some [1 / 2, 0] ∧
    (run oracleExampleIntervals sampleBattery (1 / 2)
        (oracleStrategy [1 / 2, 0])).map (fun r => r.2.1) = some 5 ∧
    (run oracleExampleIntervals sampleBattery (1 / 2)
        (scheduleStrategy oracleExampleSchedule)).map (fun r => r.2.1) = some 95 ∧
    (dpForward sampleBattery 2 (dpActions sampleBattery 1) oracleExampleIntervals
        ((List.replicate 3 negInfValue).set
          (socToIdx sampleBattery 2 (1 / 2)) 0)).map
      (fun out => dpBestFinalValue out.1) = some 95 ∧
    (5 : ℚ) < 95 := by
  set_option maxRecDepth 100000 in
  with_unfolding_all decide

/-- Counterexample to C8 as stated: node A's single-interval series is node
B's plus the constant 10, yet the canonical oracle profits differ (10 versus
0): the canonical battery starts half-full, and with one hourly interval the
SOC grid has one step, so the initial state is full and a constant positive
price is sold for profit.  In particular a constant price series does not
yield zero oracle profit. -/
theorem canonical_profit_not_offset_invariant :
    oracleProfitCanonical [⟨0 + 10, 1, 0, 0⟩] = 10 ∧
      oracleProfitCanonical [⟨0, 1, 0, 0⟩] = 0 ∧
      oracleProfitCanonical [⟨0 + 10, 1, 0, 0⟩] ≠ oracleProfitCanonical [⟨0, 1, 0, 0⟩] := by
  set_option maxRecDepth 100000 in
  with_unfolding_all decide

theorem sortQ_map_add (xs : List ℚ) (c : ℚ) :
    sortQ (xs.map (fun x => x + c)) = (sortQ xs).map (fun x => x + c) := by
  have hperm : List.Perm (sortQ (xs.map (fun x => x + c))) ((sortQ xs).map (fun x => x + c)) :=
    (List.mergeSort_perm _ _).trans ((List.mergeSort_perm xs _).map _).symm
  have hs1 : List.Sorted (· ≤ ·) (sortQ (xs.map (fun x => x + c))) :=
    List.sorted_mergeSort' _
  have hs2 : List.Sorted (· ≤ ·) ((sortQ xs).map (fun x => x + c)) :=
    List.Pairwise.map _ (fun a b hab => by simpa using hab) (List.sorted_mergeSort' xs)
  exact List.eq_of_perm_of_sorted hperm hs1 hs2

theorem percentileSorted_map_add (s : List ℚ) (c q : ℚ) (hne : s ≠ []) :
    percentileSorted (s.map (fun x => x + c)) q = percentileSorted s q + c := by
  have hlen0 : s.length ≠ 0 := by simpa [List.length_eq_zero] using hne
  have hlenpos : 0 < s.length := Nat.pos_of_ne_zero hlen0
  simp only [percentileSorted]
  rw [List.length_map]
  rw [if_neg hlen0, if_neg hlen0]
  have hget : ∀ n, n < s.length →
      (s.map (fun x => x + c)).getD n 0 = s.getD n 0 + c := by
    intro n hn
    rw [List.getD_eq_getElem s 0 hn,
      List.getD_eq_getElem (s.map (fun x => x + c)) 0 (by simpa using hn)]
    simp
  split_ifs with h1 h2 h3
  · exact hget 0 hlenpos
  · exact hget (s.length - 1) (Nat.sub_lt hlenpos Nat.one_pos)
  · -- interior, integer grid position
    have hq0 : 0 < q := lt_of_not_le h1
    have hq1 : q < 1 := lt_of_not_le h2
    have hposle : q * ((s.length : ℚ) - 1) ≤ (s.length : ℚ) - 1 := by
      have hn1 : 0 ≤ (s.length : ℚ) - 1 := by
        have : (1 : ℚ) ≤ (s.length : ℚ) := by exact_mod_cast hlenpos
        linarith
      nlinarith
    have hlo : (⌊q * ((s.length : ℚ) - 1)⌋).toNat < s.length := by
      have h1' : (⌊q * ((s.length : ℚ) - 1)⌋ : ℚ) ≤ (s.length : ℚ) - 1 :=
        le_trans (Int.floor_le _) hposle
      have h2' : ⌊q * ((s.length : ℚ) - 1)⌋ ≤ (s.length : ℤ) - 1 := by exact_mod_cast h1'
      omega
    exact hget _ hlo
  · -- interior, interpolation between two grid positions
    have hq0 : 0 < q := lt_of_not_le h1
    have hq1 : q < 1 := lt_of_not_le h2
    have hpos0 : 0 ≤ q * ((s.length : ℚ) - 1) := by
      have hn1 : 0 ≤ (s.length : ℚ) - 1 := by
        have : (1 : ℚ) ≤ (s.length : ℚ) := by exact_mod_cast hlenpos
        linarith
      positivity
    have hposle : q * ((s.length : ℚ) - 1) ≤ (s.length : ℚ) - 1 := by
      have hn1 : 0 ≤ (s.length : ℚ) - 1 := by
        have : (1 : ℚ) ≤ (s.length : ℚ) := by exact_mod_cast hlenpos
        linarith
      nlinarith
    have hlo : (⌊q * ((s.length : ℚ) - 1)⌋).toNat < s.length := by
      have h1' : (⌊q * ((s.length : ℚ) - 1)⌋ : ℚ) ≤ (s.length : ℚ) - 1 :=
        le_trans (Int.floor_le _) hposle
      have h2' : ⌊q * ((s.length : ℚ) - 1)⌋ ≤ (s.length : ℤ) - 1 := by exact_mod_cast h1'
      omega
    have hhi : (⌈q * ((s.length : ℚ) - 1)⌉).toNat < s.length := by
      have h2' : ⌈q * ((s.length : ℚ) - 1)⌉ ≤ (s.length : ℤ) - 1 := by
        apply Int.ceil_le.mpr
        push_cast
        exact hposle
      omega
    rw [hget _ hlo, hget _ hhi]
    ring

/-- C8 (amended): shifting every LMP of a node by a fixed constant leaves
`spread_p95_p05` unchanged; the oracle-profit half of the claim fails (see
the counterexample), because the canonical battery starts half-full and the
DP maximizes over final states. -/
theorem spread_p95_p05_offset_invariant (xs : List ℚ) (c : ℚ) :
    spreadP95P05 (xs.map (fun x => x + c)) = spreadP95P05 xs := by
  rcases eq_or_ne xs [] with rfl | hne
  · rfl
  · have hsne : sortQ xs ≠ [] := by
      intro h0
      apply hne
      have hl := (List.mergeSort_perm xs (fun a b => a ≤ b)).length_eq
      rw [show xs.mergeSort (fun a b => a ≤ b) = sortQ xs from rfl, h0] at hl
      exact List.length_eq_zero.mp hl.symm
    simp only [spreadP95P05]
    rw [sortQ_map_add, percentileSorted_map_add _ _ _ hsne,
      percentileSorted_map_add _ _ _ hsne]
    ring

end BatteryBacktest
